import Mathlib

/-!
Shallow embedding of the credential-pool subsystem (`backend/pool.py`):
a per-credential token-bucket rate limiter, a circuit breaker, the
`APIKey` wrapper, the `KeyPool` with weighted-round-robin acquisition,
outcome reporting, and configuration loading.

Modelling conventions:
* Python floats and timestamps become `ℚ`; `float("inf")` (the value of
  `time_to_avail` at refill rate 0, and the initial `best_wait` in
  `acquire_key`) becomes `⊤ : WithTop ℚ`.
* `time.time()` becomes an explicit `now : ℚ` argument; one `acquire_key`
  call uses a single `now` for all its internal clock reads.
* `random.uniform(a, b)` becomes an explicit `rand : ℚ` argument.
* Python mutates `APIKey` objects shared by reference inside the pool's
  list; here pool operations return the index of the chosen key into the
  pool's list and an updated pool.
* `asyncio.Lock` serializes `acquire_key` / `report_*`; concurrent calls
  therefore execute as some sequential interleaving, modelled by folding
  pool operations over a list.
-/

/-- The `TokenBucket` from `pool.py`: `capacity`, `refill_rate`, `tokens`,
`last_refill_ts`. -/
structure TokenBucket where
  capacity : ℚ
  refill_rate : ℚ
  tokens : ℚ
  last_refill_ts : ℚ
deriving Repr, DecidableEq

namespace TokenBucket

/-- The refill step at the head of `try_consume`:
`tokens = min(capacity, tokens + delta * refill_rate); last_refill_ts = now`. -/
def refill (b : TokenBucket) (now : ℚ) : TokenBucket :=
  { b with
    tokens := min b.capacity (b.tokens + (now - b.last_refill_ts) * b.refill_rate)
    last_refill_ts := now }

/-- The `TokenBucket.try_consume`: refill, then consume `amount` iff
`tokens >= amount`; returns the Python boolean and the mutated bucket. -/
def try_consume (b : TokenBucket) (now : ℚ) (amount : ℚ) : Bool × TokenBucket :=
  let b' := b.refill now
  if amount ≤ b'.tokens then (true, { b' with tokens := b'.tokens - amount })
  else (false, b')

/-- The `TokenBucket.time_to_avail`: `0.0` if `tokens >= amount`, else
`(amount - tokens) / refill_rate`, or `float("inf")` (here `⊤`) when
`refill_rate` is not positive.  Note the source performs no refill here. -/
def time_to_avail (b : TokenBucket) (amount : ℚ) : WithTop ℚ :=
  if amount ≤ b.tokens then 0
  else if 0 < b.refill_rate then ((amount - b.tokens) / b.refill_rate : ℚ)
  else ⊤

end TokenBucket

/-- The `CircuitBreaker` from `pool.py`. -/
structure CircuitBreaker where
  failure_count : ℕ
  last_failure_ts : ℚ
  open_until : ℚ
  cooldown_seconds : ℚ
  threshold : ℕ
deriving Repr, DecidableEq

namespace CircuitBreaker

/-- Default field values of the `CircuitBreaker` dataclass. -/
def default : CircuitBreaker :=
  { failure_count := 0, last_failure_ts := 0, open_until := 0
    cooldown_seconds := 1, threshold := 3 }

/-- The `record_success`: reset `failure_count`, `last_failure_ts`, `open_until`. -/
def record_success (cb : CircuitBreaker) : CircuitBreaker :=
  { cb with failure_count := 0, last_failure_ts := 0, open_until := 0 }

/-- Python truthiness coalescing `cool or self.cooldown_seconds`:
`None` and `0`/`0.0` both fall back to the default. -/
def coolOrDefault (cb : CircuitBreaker) (cool : Option ℚ) : ℚ :=
  match cool with
  | none => cb.cooldown_seconds
  | some c => if c = 0 then cb.cooldown_seconds else c

/-- The `record_failure(cool)`: increment `failure_count`, stamp
`last_failure_ts`, and once `failure_count >= threshold` assign
`open_until = now + (cool or cooldown_seconds)` (a plain assignment in the
source, not a `max`). -/
def record_failure (cb : CircuitBreaker) (now : ℚ) (cool : Option ℚ) :
    CircuitBreaker :=
  let cb' := { cb with failure_count := cb.failure_count + 1, last_failure_ts := now }
  if cb'.threshold ≤ cb'.failure_count then
    { cb' with open_until := now + cb'.coolOrDefault cool }
  else cb'

/-- The `is_open`: `time.time() < open_until`. -/
def is_open (cb : CircuitBreaker) (now : ℚ) : Bool :=
  decide (now < cb.open_until)

end CircuitBreaker

/-- The `APIKey` from `pool.py`; `metadata` is kept as its only used field,
the optional `base_url`. -/
structure APIKey where
  key : String
  vendor : String
  weight : ℤ
  dead : Bool
  breaker : CircuitBreaker
  bucket : TokenBucket
  min_cooldown : ℚ
  next_probe_ts : ℚ
  base_url : Option String
deriving Repr, DecidableEq

namespace APIKey

/-- Default bucket of the `APIKey` dataclass: `TokenBucket(capacity=60,
refill_rate=1.0)` with `tokens = 0.0` (the dataclass default). -/
def defaultBucket (createdAt : ℚ) : TokenBucket :=
  { capacity := 60, refill_rate := 1, tokens := 0, last_refill_ts := createdAt }

/-- The `APIKey.healthy`: not dead and breaker not open. -/
def healthy (k : APIKey) (now : ℚ) : Bool :=
  !k.dead && !(k.breaker.is_open now)

end APIKey

/-- The `KeyPool`: the list of keys and the round-robin cursor.  The
`asyncio.Lock` is represented by sequential composition of operations. -/
structure KeyPool where
  keys : List APIKey
  rr_cursor : ℕ
deriving Repr, DecidableEq

/-- Placeholder returned by out-of-range index reads; pool operations only
produce indices into the list, so it is never observed. -/
def dummyKey : APIKey :=
  { key := "", vendor := "", weight := 0, dead := true
    breaker := CircuitBreaker.default
    bucket := { capacity := 0, refill_rate := 0, tokens := 0, last_refill_ts := 0 }
    min_cooldown := 5, next_probe_ts := 0, base_url := none }

namespace KeyPool

/-- Read the key at index `i` (Python accesses the shared object directly). -/
def getKey (p : KeyPool) (i : ℕ) : APIKey :=
  p.keys.getD i dummyKey

/-- Write back the key at index `i` (Python mutates the shared object). -/
def setKey (p : KeyPool) (i : ℕ) (k : APIKey) : KeyPool :=
  { p with keys := p.keys.set i k }

/-- The `_eligible_keys`: indices of keys that are neither dead nor
breaker-open. -/
def eligible_idx (p : KeyPool) (now : ℚ) : List ℕ :=
  (List.range p.keys.length).filter fun i =>
    !(p.getKey i).dead && !((p.getKey i).breaker.is_open now)

/-- The vendor filter of `acquire_key`:
`not vendor or k.vendor == vendor` — `None` and the empty string disable
filtering. -/
def vendorOk (p : KeyPool) (vendor : Option String) (i : ℕ) : Bool :=
  match vendor with
  | none => true
  | some v => v = "" || (p.getKey i).vendor = v

/-- The virtual list of `_weighted_round_robin`: each candidate repeated
`max(0, weight)` times (`Int.toNat` is exactly `max 0`). -/
def expandedOf (p : KeyPool) (cands : List ℕ) : List ℕ :=
  cands.flatMap fun i => List.replicate (p.getKey i).weight.toNat i

/-- The `_weighted_round_robin`: `None` on an empty virtual list (cursor
untouched), else the entry at `rr_cursor % len` with the cursor advanced. -/
def wrr (p : KeyPool) (cands : List ℕ) : Option ℕ × KeyPool :=
  let expanded := p.expandedOf cands
  if expanded.isEmpty then (none, p)
  else (some (expanded.getD (p.rr_cursor % expanded.length) 0),
        { p with rr_cursor := p.rr_cursor + 1 })

/-- The `for _ in range(len(cands))` loop body of `acquire_key`, with the
running fallback `best` and its wait `best_wait` (initially `None` and
`float("inf")`). -/
def acquireGo (now : ℚ) (cands : List ℕ) :
    ℕ → KeyPool → Option ℕ → WithTop ℚ → Option ℕ × KeyPool
  | 0, p, best, _ => (best, p)
  | n + 1, p, best, bestWait =>
    match p.wrr cands with
    | (none, p') => (best, p')
    | (some i, p') =>
      let k := p'.getKey i
      let r := k.bucket.try_consume now 1
      let p'' := p'.setKey i { k with bucket := r.2 }
      if r.1 then (some i, p'')
      else
        let wait := r.2.time_to_avail 1
        if wait < bestWait then acquireGo now cands n p'' (some i) wait
        else acquireGo now cands n p'' best bestWait

/-- The candidate list of `acquire_key`: eligible keys matching `vendor`. -/
def candsOf (p : KeyPool) (now : ℚ) (vendor : Option String) : List ℕ :=
  (p.eligible_idx now).filter (p.vendorOk vendor)

/-- The `KeyPool.acquire_key` (the body under the lock): build the candidate
list, return `None` when empty, else run up to `len(cands)` weighted picks,
consuming a token from the first pick that has one, otherwise returning
the remembered smallest-wait fallback (unconsumed). -/
def acquire_key (p : KeyPool) (now : ℚ) (vendor : Option String) :
    Option ℕ × KeyPool :=
  let cands := p.candsOf now vendor
  if cands.isEmpty then (none, p)
  else acquireGo now cands cands.length p none ⊤

/-- The `KeyPool.report_success`: reset the key's breaker. -/
def report_success (p : KeyPool) (i : ℕ) : KeyPool :=
  p.setKey i { p.getKey i with breaker := (p.getKey i).breaker.record_success }

/-- The Python truthiness test `retry_after if retry_after else
random.uniform(8, 20)`: `None` and `0`/`0.0` both yield the random draw. -/
def rateCool (retry_after : Option ℚ) (rand : ℚ) : ℚ :=
  match retry_after with
  | none => rand
  | some t => if t = 0 then rand else t

/-- The `KeyPool.report_failure`: `'auth'` marks the key dead; `'rate'`
records a failure with `retry_after`-or-random(8,20) cooldown;
`'server'`/`'network'` with random(10,60); anything else with the key's
`min_cooldown`. -/
def report_failure (p : KeyPool) (i : ℕ) (kind : String)
    (retry_after : Option ℚ) (rand : ℚ) (now : ℚ) : KeyPool :=
  if kind = "auth" then p.setKey i { p.getKey i with dead := true }
  else if kind = "rate" then
    p.setKey i { p.getKey i with
      breaker := (p.getKey i).breaker.record_failure now
        (some (rateCool retry_after rand)) }
  else if kind = "server" ∨ kind = "network" then
    p.setKey i { p.getKey i with
      breaker := (p.getKey i).breaker.record_failure now (some rand) }
  else
    p.setKey i { p.getKey i with
      breaker := (p.getKey i).breaker.record_failure now
        (some (p.getKey i).min_cooldown) }

/-- The `KeyPool.have_live_key`: some key is healthy. -/
def have_live_key (p : KeyPool) (now : ℚ) : Bool :=
  p.keys.any fun k => k.healthy now

end KeyPool

section LoadConfig

/-- One entry of the `"keys"` list of the configuration file. -/
structure KeyEntry where
  key : String
  vendor : String
  weight : Option ℤ
  rpm : Option ℤ
  capacity : Option ℤ
  base_url : Option String
deriving Repr, DecidableEq

/-- The parsed configuration file, restricted to the fields
`load_keypool_from_config` reads. -/
structure Config where
  defaults_rpm : Option ℤ
  defaults_capacity : Option ℤ
  keys : List KeyEntry
  llm_key : Option String
  llm_settings_base_url : Option String
  debug_settings_base_url : Option String
  pptx_settings_base_url : Option String
deriving Repr, DecidableEq

/-- The `APIKey` built from one `"keys"` entry: `weight` defaults to 1,
`rpm` to `defaults.rpm` (60), `capacity` to the entry's `rpm`, bucket
`TokenBucket(capacity, rpm/60)` with dataclass-default `tokens = 0`. -/
def entryToKey (default_rpm : ℤ) (createdAt : ℚ) (e : KeyEntry) : APIKey :=
  let rpm := e.rpm.getD default_rpm
  let capacity := e.capacity.getD rpm
  { key := e.key, vendor := e.vendor
    weight := e.weight.getD 1
    dead := false
    breaker := CircuitBreaker.default
    bucket := { capacity := (capacity : ℚ), refill_rate := (rpm : ℚ) / 60
                tokens := 0, last_refill_ts := createdAt }
    min_cooldown := 5, next_probe_ts := 0
    base_url := e.base_url }

/-- The legacy branch's base-url lookup: first of `llm_settings`,
`debug_settings`, `pptx_settings` that carries a `base_url`. -/
def legacyBaseUrl (cfg : Config) : Option String :=
  (cfg.llm_settings_base_url.or cfg.debug_settings_base_url).or
    cfg.pptx_settings_base_url

/-- The body of `load_keypool_from_config` after the file was read and
parsed: map the `"keys"` entries, and only when that yields nothing and a
top-level `"llm_key"` exists, fall back to one legacy `openai` key of
weight 3. -/
def loadFromCfg (cfg : Config) (createdAt : ℚ) : KeyPool :=
  let default_rpm := cfg.defaults_rpm.getD 60
  let default_capacity := cfg.defaults_capacity.getD default_rpm
  let fromList := cfg.keys.map (entryToKey default_rpm createdAt)
  let out :=
    if fromList.isEmpty then
      match cfg.llm_key with
      | some secret =>
        [{ key := secret, vendor := "openai", weight := 3, dead := false
           breaker := CircuitBreaker.default
           bucket := { capacity := (default_capacity : ℚ)
                       refill_rate := (default_rpm : ℚ) / 60
                       tokens := 0, last_refill_ts := createdAt }
           min_cooldown := 5, next_probe_ts := 0
           base_url := legacyBaseUrl cfg }]
      | none => fromList
    else fromList
  { keys := out, rr_cursor := 0 }

/-- The two possible runtime types `load_keypool_from_config` returns: a
bare Python `list` (the `return []` when the file is absent) or a
`KeyPool` (the final `return KeyPool(out)`). -/
inductive LoadResult where
  | keylist (ks : List APIKey)
  | pool (p : KeyPool)
deriving Repr, DecidableEq

/-- The `load_keypool_from_config`: the file's content, `none` when the path
does not exist.  An absent file returns the bare list `[]`; a present one
returns a `KeyPool`. -/
def load_keypool_from_config (file : Option Config) (createdAt : ℚ) :
    LoadResult :=
  match file with
  | none => .keylist []
  | some cfg => .pool (loadFromCfg cfg createdAt)

end LoadConfig

section BasicLemmas

/-- Reading back after a write: index `i` gets the new key when it is in
range, every other index is untouched. -/
lemma KeyPool.getKey_setKey (p : KeyPool) (i : ℕ) (k : APIKey) (j : ℕ) :
    (p.setKey i k).getKey j =
      if i = j ∧ i < p.keys.length then k else p.getKey j := by
  unfold KeyPool.setKey KeyPool.getKey
  rcases eq_or_ne i j with rfl | hij
  · by_cases hi : i < p.keys.length
    · simp [List.getD_eq_getElem?_getD, List.getElem?_set, hi]
    · simp [List.getD_eq_getElem?_getD, List.getElem?_set, hi,
        List.getElem?_eq_none (le_of_not_lt hi)]
  · simp [List.getD_eq_getElem?_getD, List.getElem?_set, hij]

/-- Refilling twice at the same instant is the same as refilling once. -/
lemma TokenBucket.refill_refill (b : TokenBucket) (now : ℚ) :
    (b.refill now).refill now = b.refill now := by
  simp [TokenBucket.refill, ← min_assoc]

end BasicLemmas

/-- C3, counterexample. A breaker already at its threshold (3 failures)
with `open_until = 100` receives a further failure at `now = 1` with
cooldown 5: the source assigns `open_until = 6`, moving it earlier than
100, where the claim requires `max(100, 1 + 5) = 100`. -/
theorem C3_counterexample :
    (CircuitBreaker.record_failure ⟨3, 0, 100, 1, 3⟩ 1 (some 5)).open_until = 6 ∧
    (CircuitBreaker.record_failure ⟨3, 0, 100, 1, 3⟩ 1 (some 5)).open_until < 100 := by
  constructor <;>
    norm_num [CircuitBreaker.record_failure, CircuitBreaker.coolOrDefault]

/-- C3, amended: once `failureCount` has reached `threshold`, every
further `recordFailure(cooldown)` assigns `openUntil := now + cooldown`
outright (replacing, not maximizing, the current value); a later failure
with a smaller cooldown can therefore move `openUntil` earlier. -/
theorem C3_overwrites_open_until (cb : CircuitBreaker) (now c : ℚ)
    (hth : cb.threshold ≤ cb.failure_count) (hc : c ≠ 0) :
    (cb.record_failure now (some c)).open_until = now + c := by
  have h1 : cb.threshold ≤ cb.failure_count + 1 := le_trans hth (Nat.le_succ _)
  simp [CircuitBreaker.record_failure, CircuitBreaker.coolOrDefault, h1, hc]

/-- C3, witness: the amended statement at a breaker with
`failure_count = threshold = 3`, a failure at `now = 2` with cooldown 5. -/
theorem C3_witness :
    (CircuitBreaker.record_failure ⟨3, 0, 100, 1, 3⟩ 2 (some 5)).open_until = 7 := by
  rw [C3_overwrites_open_until ⟨3, 0, 100, 1, 3⟩ 2 5 (by norm_num) (by norm_num)]
  norm_num

/-- C4: when the configuration file is absent the source executes
`return []`, producing a bare Python list rather than a `KeyPool`; the
caller `outline_check.py` immediately invokes `have_live_key()` on the
result, which a list does not support.  The claim (and the spec) expect an
empty pool object with `hasLiveCredential()` false. -/
theorem C4_absent_file_returns_bare_list :
    load_keypool_from_config none 0 = LoadResult.keylist [] := rfl

/-- C5, counterexample. A bucket with capacity 60, refill rate 1,
`tokens = 0`, `last_refill_ts = 0`, observed at `now = 10`: a refill would
top the stock up to 10 ≥ 1, so under the claim `timeToAvailable(1)` must
return 0; the source performs no refill in `time_to_avail` and returns
`(1 - 0) / 1 = 1`. -/
theorem C5_counterexample :
    (1 : ℚ) ≤ (TokenBucket.refill ⟨60, 1, 0, 0⟩ 10).tokens ∧
    TokenBucket.time_to_avail ⟨60, 1, 0, 0⟩ 1 = ((1 : ℚ) : WithTop ℚ) := by
  constructor
  · norm_num [TokenBucket.refill]
  · norm_num [TokenBucket.time_to_avail]

/-- C5, amended: only `tryConsume` tops the stock up (by elapsed time
times `refillRate`, capped at `capacity`); `timeToAvailable` reads the
current stock without refilling, returning 0 exactly when `tokens`
already covers `amount`, `(amount - tokens) / refillRate` when it does not
and `refillRate` is positive, and infinity when `refillRate` is 0. -/
theorem C5_no_refill_on_time_to_avail (b : TokenBucket) (amount now : ℚ)
    (hrate : 0 ≤ b.refill_rate) (hnow : b.last_refill_ts ≤ now)
    (htok : b.tokens ≤ b.capacity) :
    (b.time_to_avail amount = 0 ↔ amount ≤ b.tokens) ∧
    (b.refill_rate = 0 → b.tokens < amount → b.time_to_avail amount = ⊤) ∧
    (0 < b.refill_rate → b.tokens < amount →
      b.time_to_avail amount = (((amount - b.tokens) / b.refill_rate : ℚ) : WithTop ℚ)) ∧
    b.tokens ≤ (b.refill now).tokens ∧ (b.refill now).tokens ≤ b.capacity := by
  refine ⟨?_, ?_, ?_, ?_, ?_⟩
  · constructor
    · intro h
      by_contra hlt
      push_neg at hlt
      rcases lt_or_eq_of_le hrate with hpos | hzero
      · rw [TokenBucket.time_to_avail, if_neg (not_le.2 hlt), if_pos hpos] at h
        have h0 : (amount - b.tokens) / b.refill_rate = 0 := by
          exact_mod_cast h
        have : 0 < (amount - b.tokens) / b.refill_rate :=
          div_pos (sub_pos.2 hlt) hpos
        exact absurd h0 (ne_of_gt this)
      · rw [TokenBucket.time_to_avail, if_neg (not_le.2 hlt),
          if_neg (by rw [← hzero]; exact lt_irrefl 0)] at h
        exact absurd h (by simp)
    · intro h
      simp [TokenBucket.time_to_avail, h]
  · intro h0 hlt
    simp [TokenBucket.time_to_avail, not_le.2 hlt, h0]
  · intro hpos hlt
    simp [TokenBucket.time_to_avail, not_le.2 hlt, hpos]
  · refine le_min htok ?_
    have h1 : 0 ≤ (now - b.last_refill_ts) * b.refill_rate :=
      mul_nonneg (sub_nonneg.2 hnow) hrate
    have h2 : b.tokens ≤ b.tokens + (now - b.last_refill_ts) * b.refill_rate := by
      linarith
    simpa [TokenBucket.refill] using h2
  · exact min_le_left _ _

/-- C5, witness: the amended statement at a bucket with capacity 60,
refill rate 1, 30 tokens, last refill 0, demanded amount 1, observed at 5. -/
theorem C5_witness :
    (TokenBucket.time_to_avail ⟨60, 1, 30, 0⟩ 1 = 0 ↔ (1 : ℚ) ≤ 30) ∧
    ((1 : ℚ) = 0 → (30 : ℚ) < 1 → TokenBucket.time_to_avail ⟨60, 1, 30, 0⟩ 1 = ⊤) ∧
    ((0 : ℚ) < 1 → (30 : ℚ) < 1 →
      TokenBucket.time_to_avail ⟨60, 1, 30, 0⟩ 1 = ((((1 : ℚ) - 30) / 1 : ℚ) : WithTop ℚ)) ∧
    (30 : ℚ) ≤ (TokenBucket.refill ⟨60, 1, 30, 0⟩ 5).tokens ∧
    (TokenBucket.refill ⟨60, 1, 30, 0⟩ 5).tokens ≤ 60 :=
  C5_no_refill_on_time_to_avail ⟨60, 1, 30, 0⟩ 1 5 (by norm_num) (by norm_num)
    (by norm_num)

/-- C8: reporting a RateLimit failure with `retry_after = 0` is
indistinguishable from reporting one with `retry_after` absent — Python's
`retry_after if retry_after else random.uniform(8, 20)` treats `0` as
falsy, so the random draw is used in both cases. -/
theorem C8_zero_retry_after_like_absent (p : KeyPool) (i : ℕ) (rand now : ℚ) :
    p.report_failure i "rate" (some 0) rand now =
      p.report_failure i "rate" none rand now := rfl

/-- C10: with a non-empty `"keys"` list, loading yields exactly the
credentials built from those entries — the legacy top-level `"llm_key"` is
ignored (removing it changes nothing), because the legacy branch runs only
when the `"keys"` list produced no credentials. -/
theorem C10_keys_shadow_legacy (cfg : Config) (createdAt : ℚ)
    (hne : cfg.keys ≠ []) :
    (loadFromCfg cfg createdAt).keys =
      cfg.keys.map (entryToKey (cfg.defaults_rpm.getD 60) createdAt) ∧
    loadFromCfg cfg createdAt = loadFromCfg { cfg with llm_key := none } createdAt := by
  have h : (cfg.keys.map (entryToKey (cfg.defaults_rpm.getD 60) createdAt)).isEmpty
      = false := by
    simp [List.isEmpty_iff, hne]
  constructor
  · simp [loadFromCfg, h]
  · simp [loadFromCfg, h]

/-- A configuration carrying both one `"keys"` entry and a legacy
`"llm_key"`, used to witness C10. -/
def cfgBoth : Config :=
  { defaults_rpm := none, defaults_capacity := none
    keys := [{ key := "sk-a", vendor := "openai", weight := some 2, rpm := none
               capacity := none, base_url := none }]
    llm_key := some "legacy"
    llm_settings_base_url := none, debug_settings_base_url := none
    pptx_settings_base_url := none }

/-- C10, witness: the statement at `cfgBoth`. -/
theorem C10_witness :
    (loadFromCfg cfgBoth 0).keys = cfgBoth.keys.map (entryToKey 60 0) ∧
    loadFromCfg cfgBoth 0 = loadFromCfg { cfgBoth with llm_key := none } 0 :=
  C10_keys_shadow_legacy cfgBoth 0 (by simp [cfgBoth])

/-- One call against a `TokenBucket`: `try_consume(now, amount)` or
`time_to_avail(amount)` (the latter takes no clock reading in the source). -/
inductive BucketOp where
  | tryConsume (now amount : ℚ)
  | timeToAvail (amount : ℚ)
deriving Repr, DecidableEq

/-- The state left behind by one bucket call: `try_consume` mutates the
bucket, `time_to_avail` only reads it. -/
def bucketStep (b : TokenBucket) : BucketOp → TokenBucket
  | .tryConsume now amount => (b.try_consume now amount).2
  | .timeToAvail _ => b

/-- The wall clock never runs backwards and consumed amounts are
nonnegative: each `try_consume` in the sequence happens no earlier than
the bucket's pending `last_refill_ts`. -/
def opsValid : ℚ → List BucketOp → Prop
  | _, [] => True
  | ts, .tryConsume now amount :: rest => ts ≤ now ∧ 0 ≤ amount ∧ opsValid now rest
  | ts, .timeToAvail _ :: rest => opsValid ts rest

/-- One `try_consume` keeps `0 ≤ tokens ≤ capacity`, and does not touch
capacity or refill rate; the new `last_refill_ts` is `now`. -/
lemma try_consume_inv (b : TokenBucket) (now amount : ℚ)
    (hrate : 0 ≤ b.refill_rate) (hnow : b.last_refill_ts ≤ now)
    (hamt : 0 ≤ amount) (h0 : 0 ≤ b.tokens) (h1 : b.tokens ≤ b.capacity)
    (hcap : 0 ≤ b.capacity) :
    0 ≤ (b.try_consume now amount).2.tokens ∧
    (b.try_consume now amount).2.tokens ≤ b.capacity ∧
    (b.try_consume now amount).2.capacity = b.capacity ∧
    (b.try_consume now amount).2.refill_rate = b.refill_rate ∧
    (b.try_consume now amount).2.last_refill_ts = now := by
  have href : (b.refill now).tokens
      = min b.capacity (b.tokens + (now - b.last_refill_ts) * b.refill_rate) := rfl
  have hd : 0 ≤ (now - b.last_refill_ts) * b.refill_rate :=
    mul_nonneg (sub_nonneg.2 hnow) hrate
  have hr0 : 0 ≤ (b.refill now).tokens := by
    rw [href]; exact le_min hcap (by linarith)
  have hr1 : (b.refill now).tokens ≤ b.capacity := by
    rw [href]; exact min_le_left _ _
  rw [TokenBucket.try_consume]
  by_cases h : amount ≤ (b.refill now).tokens
  · rw [if_pos h]
    refine ⟨?_, ?_, rfl, rfl, rfl⟩
    · exact sub_nonneg.2 h
    · show (b.refill now).tokens - amount ≤ b.capacity
      linarith
  · rw [if_neg h]
    exact ⟨hr0, hr1, rfl, rfl, rfl⟩

/-- C7: starting from any bucket with positive capacity, nonnegative
refill rate and `0 ≤ tokens ≤ capacity`, any valid sequence of
`try_consume` / `time_to_avail` calls leaves `0 ≤ tokens ≤ capacity`. -/
theorem C7_bucket_invariant (b : TokenBucket) (ops : List BucketOp)
    (hcap : 0 < b.capacity) (hrate : 0 ≤ b.refill_rate)
    (h0 : 0 ≤ b.tokens) (h1 : b.tokens ≤ b.capacity)
    (hops : opsValid b.last_refill_ts ops) :
    0 ≤ (ops.foldl bucketStep b).tokens ∧
    (ops.foldl bucketStep b).tokens ≤ (ops.foldl bucketStep b).capacity := by
  induction ops generalizing b with
  | nil => exact ⟨h0, h1⟩
  | cons op rest ih =>
    cases op with
    | tryConsume now amount =>
      obtain ⟨hnow, hamt, hrest⟩ := hops
      obtain ⟨i0, i1, icap, irate, its⟩ :=
        try_consume_inv b now amount hrate hnow hamt h0 h1 (le_of_lt hcap)
      refine ih (b.try_consume now amount).2 ?_ ?_ i0 ?_ ?_
      · rw [icap]; exact hcap
      · rw [irate]; exact hrate
      · rw [icap]; exact i1
      · rw [its]; exact hrest
    | timeToAvail amount =>
      exact ih b hcap hrate h0 h1 hops

/-- C7, witness: bucket of capacity 60, rate 1, starting full at time 0,
run through a consume at time 1, a wait query, and a consume at time 2. -/
theorem C7_witness :
    0 ≤ (List.foldl bucketStep ⟨60, 1, 60, 0⟩
      [.tryConsume 1 1, .timeToAvail 1, .tryConsume 2 1]).tokens ∧
    (List.foldl bucketStep ⟨60, 1, 60, 0⟩
      [.tryConsume 1 1, .timeToAvail 1, .tryConsume 2 1]).tokens ≤
    (List.foldl bucketStep ⟨60, 1, 60, 0⟩
      [.tryConsume 1 1, .timeToAvail 1, .tryConsume 2 1]).capacity :=
  C7_bucket_invariant ⟨60, 1, 60, 0⟩ _ (by norm_num) (by norm_num) (by norm_num)
    (by norm_num) (by norm_num [opsValid])

section AcquireLemmas

/-- Unfolding of the loop at fuel 0. -/
lemma KeyPool.acquireGo_zero (now : ℚ) (cands : List ℕ) (p : KeyPool)
    (best : Option ℕ) (bw : WithTop ℚ) :
    KeyPool.acquireGo now cands 0 p best bw = (best, p) := rfl

/-- Unfolding of the loop at positive fuel, with the source's local
bindings substituted. -/
lemma KeyPool.acquireGo_succ (now : ℚ) (cands : List ℕ) (n : ℕ) (p : KeyPool)
    (best : Option ℕ) (bw : WithTop ℚ) :
    KeyPool.acquireGo now cands (n + 1) p best bw =
      match p.wrr cands with
      | (none, p') => (best, p')
      | (some i, p') =>
        if ((p'.getKey i).bucket.try_consume now 1).1 then
          (some i, p'.setKey i
            { p'.getKey i with bucket := ((p'.getKey i).bucket.try_consume now 1).2 })
        else if ((p'.getKey i).bucket.try_consume now 1).2.time_to_avail 1 < bw then
          KeyPool.acquireGo now cands n
            (p'.setKey i
              { p'.getKey i with bucket := ((p'.getKey i).bucket.try_consume now 1).2 })
            (some i) (((p'.getKey i).bucket.try_consume now 1).2.time_to_avail 1)
        else
          KeyPool.acquireGo now cands n
            (p'.setKey i
              { p'.getKey i with bucket := ((p'.getKey i).bucket.try_consume now 1).2 })
            best bw := rfl

/-- A member of the weighted-round-robin expansion is a candidate of
positive weight (weight `w` contributes `max(0, w)` copies). -/
lemma KeyPool.mem_expandedOf {p : KeyPool} {cands : List ℕ} {i : ℕ}
    (h : i ∈ p.expandedOf cands) : i ∈ cands ∧ 0 < (p.getKey i).weight := by
  unfold KeyPool.expandedOf at h
  rw [List.mem_flatMap] at h
  obtain ⟨a, ha, hi⟩ := h
  rw [List.mem_replicate] at hi
  obtain ⟨hn, rfl⟩ := hi
  refine ⟨ha, ?_⟩
  by_contra hw
  push_neg at hw
  exact hn (Int.toNat_eq_zero.mpr hw)

/-- A successful round-robin pick is drawn from the expansion, and the
only state change is the cursor bump. -/
lemma KeyPool.wrr_some {p : KeyPool} {cands : List ℕ} {i : ℕ} {p' : KeyPool}
    (h : p.wrr cands = (some i, p')) :
    i ∈ p.expandedOf cands ∧ p' = { p with rr_cursor := p.rr_cursor + 1 } := by
  unfold KeyPool.wrr at h
  by_cases he : (p.expandedOf cands).isEmpty
  · rw [if_pos he] at h
    cases h
  · rw [if_neg he] at h
    rw [Prod.mk.injEq] at h
    obtain ⟨h1, h2⟩ := h
    have hne : p.expandedOf cands ≠ [] := by
      simpa [List.isEmpty_iff] using he
    have hlen : 0 < (p.expandedOf cands).length := List.length_pos.2 hne
    have hidx : p.rr_cursor % (p.expandedOf cands).length
        < (p.expandedOf cands).length := Nat.mod_lt _ hlen
    refine ⟨?_, h2.symm⟩
    rw [← Option.some.inj h1]
    rw [List.getD_eq_getElem?_getD, List.getElem?_eq_getElem hidx]
    exact List.getElem_mem hidx

/-- Writing back a key with only its bucket changed preserves every other
field of every key in the pool. -/
lemma KeyPool.getKey_setBucket (p : KeyPool) (i : ℕ) (b : TokenBucket) (j : ℕ) :
    (((p.setKey i { p.getKey i with bucket := b }).getKey j).dead = (p.getKey j).dead) ∧
    (((p.setKey i { p.getKey i with bucket := b }).getKey j).weight = (p.getKey j).weight) ∧
    (((p.setKey i { p.getKey i with bucket := b }).getKey j).vendor = (p.getKey j).vendor) ∧
    (((p.setKey i { p.getKey i with bucket := b }).getKey j).breaker = (p.getKey j).breaker) := by
  rw [KeyPool.getKey_setKey]
  by_cases h : i = j ∧ i < p.keys.length
  · obtain ⟨rfl, hlen⟩ := h
    rw [if_pos ⟨rfl, hlen⟩]
    exact ⟨rfl, rfl, rfl, rfl⟩
  · rw [if_neg h]
    exact ⟨rfl, rfl, rfl, rfl⟩

/-- Unfolding of the loop at positive fuel when the round-robin pick is
empty: the loop breaks and returns the running fallback. -/
lemma KeyPool.acquireGo_succ_none {p : KeyPool} {cands : List ℕ} {p' : KeyPool}
    (now : ℚ) (n : ℕ) (best : Option ℕ) (bw : WithTop ℚ)
    (h : p.wrr cands = (none, p')) :
    KeyPool.acquireGo now cands (n + 1) p best bw = (best, p') := by
  rw [KeyPool.acquireGo_succ, h]

/-- Unfolding of the loop at positive fuel when the round-robin pick is
`some i`: consume on success, otherwise keep the better of the fallback
and this pick and recurse. -/
lemma KeyPool.acquireGo_succ_some {p : KeyPool} {cands : List ℕ} {i : ℕ}
    {p' : KeyPool} (now : ℚ) (n : ℕ) (best : Option ℕ) (bw : WithTop ℚ)
    (h : p.wrr cands = (some i, p')) :
    KeyPool.acquireGo now cands (n + 1) p best bw =
      (if ((p'.getKey i).bucket.try_consume now 1).1 then
        (some i, p'.setKey i
          { p'.getKey i with bucket := ((p'.getKey i).bucket.try_consume now 1).2 })
      else if ((p'.getKey i).bucket.try_consume now 1).2.time_to_avail 1 < bw then
        KeyPool.acquireGo now cands n
          (p'.setKey i
            { p'.getKey i with bucket := ((p'.getKey i).bucket.try_consume now 1).2 })
          (some i) (((p'.getKey i).bucket.try_consume now 1).2.time_to_avail 1)
      else
        KeyPool.acquireGo now cands n
          (p'.setKey i
            { p'.getKey i with bucket := ((p'.getKey i).bucket.try_consume now 1).2 })
          best bw) := by
  rw [KeyPool.acquireGo_succ, h]

/-- When the expansion is empty, `wrr` returns `none` and the very pool it
was given. -/
lemma KeyPool.wrr_none {p : KeyPool} {cands : List ℕ} {p' : KeyPool}
    (h : p.wrr cands = (none, p')) : p' = p := by
  unfold KeyPool.wrr at h
  by_cases he : (p.expandedOf cands).isEmpty
  · rw [if_pos he] at h
    rw [Prod.mk.injEq] at h
    exact h.2.symm
  · rw [if_neg he] at h
    rw [Prod.mk.injEq] at h
    exact absurd h.1 (by simp)

/-- The acquisition loop touches only buckets (and the cursor): `dead`,
`weight`, `vendor` and `breaker` of every key are unchanged. -/
lemma KeyPool.acquireGo_preserves (now : ℚ) (cands : List ℕ) :
    ∀ (fuel : ℕ) (p : KeyPool) (best : Option ℕ) (bw : WithTop ℚ) (j : ℕ),
      (((KeyPool.acquireGo now cands fuel p best bw).2.getKey j).dead
        = (p.getKey j).dead) ∧
      (((KeyPool.acquireGo now cands fuel p best bw).2.getKey j).weight
        = (p.getKey j).weight) ∧
      (((KeyPool.acquireGo now cands fuel p best bw).2.getKey j).vendor
        = (p.getKey j).vendor) ∧
      (((KeyPool.acquireGo now cands fuel p best bw).2.getKey j).breaker
        = (p.getKey j).breaker) := by
  intro fuel
  induction fuel with
  | zero => intro p best bw j; exact ⟨rfl, rfl, rfl, rfl⟩
  | succ n ih =>
    intro p best bw j
    rcases hw : p.wrr cands with ⟨o, p'⟩
    cases o with
    | none =>
      obtain rfl := KeyPool.wrr_none hw
      rw [KeyPool.acquireGo_succ_none now n best bw hw]
      exact ⟨rfl, rfl, rfl, rfl⟩
    | some i =>
      obtain ⟨hmem, rfl⟩ := KeyPool.wrr_some hw
      rw [KeyPool.acquireGo_succ_some now n best bw hw]
      set pc : KeyPool := { p with rr_cursor := p.rr_cursor + 1 } with hpc
      have hkeys : ∀ m, pc.getKey m = p.getKey m := fun _ => rfl
      have hsb := KeyPool.getKey_setBucket pc i
        ((pc.getKey i).bucket.try_consume now 1).2 j
      by_cases h1 : ((pc.getKey i).bucket.try_consume now 1).1
      · rw [if_pos h1]
        simpa [hkeys] using hsb
      · rw [if_neg h1]
        by_cases h2 : ((pc.getKey i).bucket.try_consume now 1).2.time_to_avail 1 < bw
        · rw [if_pos h2]
          have hrec := ih (pc.setKey i
            { pc.getKey i with bucket := ((pc.getKey i).bucket.try_consume now 1).2 })
            (some i) (((pc.getKey i).bucket.try_consume now 1).2.time_to_avail 1) j
          refine ⟨?_, ?_, ?_, ?_⟩
          · rw [hrec.1, hsb.1, hkeys]
          · rw [hrec.2.1, hsb.2.1, hkeys]
          · rw [hrec.2.2.1, hsb.2.2.1, hkeys]
          · rw [hrec.2.2.2, hsb.2.2.2, hkeys]
        · rw [if_neg h2]
          have hrec := ih (pc.setKey i
            { pc.getKey i with bucket := ((pc.getKey i).bucket.try_consume now 1).2 })
            best bw j
          refine ⟨?_, ?_, ?_, ?_⟩
          · rw [hrec.1, hsb.1, hkeys]
          · rw [hrec.2.1, hsb.2.1, hkeys]
          · rw [hrec.2.2.1, hsb.2.2.1, hkeys]
          · rw [hrec.2.2.2, hsb.2.2.2, hkeys]

end AcquireLemmas

/-- Any `some` result of the acquisition loop is either a weighted
round-robin pick — hence a candidate of positive weight — or the fallback
the loop was seeded with. -/
lemma KeyPool.acquireGo_mem (now : ℚ) (cands : List ℕ) :
    ∀ (fuel : ℕ) (p : KeyPool) (best : Option ℕ) (bw : WithTop ℚ) (j : ℕ),
      (KeyPool.acquireGo now cands fuel p best bw).1 = some j →
      (j ∈ cands ∧ 0 < (p.getKey j).weight) ∨ best = some j := by
  intro fuel
  induction fuel with
  | zero => intro p best bw j h; right; exact h
  | succ n ih =>
    intro p best bw j h
    rcases hw : p.wrr cands with ⟨o, p'⟩
    cases o with
    | none =>
      rw [KeyPool.acquireGo_succ_none now n best bw hw] at h
      right; exact h
    | some i =>
      have hi : i ∈ cands ∧ 0 < (p.getKey i).weight :=
        KeyPool.mem_expandedOf (KeyPool.wrr_some hw).1
      obtain ⟨hmem, rfl⟩ := KeyPool.wrr_some hw
      rw [KeyPool.acquireGo_succ_some now n best bw hw] at h
      set pc : KeyPool := { p with rr_cursor := p.rr_cursor + 1 } with hpc
      have hkeys : ∀ m, pc.getKey m = p.getKey m := fun _ => rfl
      have hsb := fun m => KeyPool.getKey_setBucket pc i
        ((pc.getKey i).bucket.try_consume now 1).2 m
      by_cases h1 : ((pc.getKey i).bucket.try_consume now 1).1
      · rw [if_pos h1] at h
        have : i = j := Option.some.inj h
        subst this
        left; exact hi
      · rw [if_neg h1] at h
        by_cases h2 : ((pc.getKey i).bucket.try_consume now 1).2.time_to_avail 1 < bw
        · rw [if_pos h2] at h
          rcases ih _ (some i) _ j h with ⟨hj, hwt⟩ | hbest
          · left
            refine ⟨hj, ?_⟩
            rw [(hsb j).2.1, hkeys] at hwt
            exact hwt
          · have : i = j := Option.some.inj hbest
            subst this
            left; exact hi
        · rw [if_neg h2] at h
          rcases ih _ best _ j h with ⟨hj, hwt⟩ | hbest
          · left
            refine ⟨hj, ?_⟩
            rw [(hsb j).2.1, hkeys] at hwt
            exact hwt
          · right; exact hbest

/-- A `some` result of `acquire_key` is a candidate (eligible, vendor
matching) of positive weight. -/
lemma KeyPool.acquire_key_mem {p : KeyPool} {now : ℚ} {v : Option String}
    {j : ℕ} (h : (p.acquire_key now v).1 = some j) :
    j ∈ p.candsOf now v ∧ 0 < (p.getKey j).weight := by
  unfold KeyPool.acquire_key at h
  by_cases hc : (p.candsOf now v).isEmpty
  · rw [if_pos hc] at h
    cases h
  · rw [if_neg hc] at h
    rcases KeyPool.acquireGo_mem now (p.candsOf now v) (p.candsOf now v).length
      p none ⊤ j h with hmem | hbest
    · exact hmem
    · cases hbest

/-- A candidate index points at a key of the pool that is not dead. -/
lemma KeyPool.mem_cands_not_dead {p : KeyPool} {now : ℚ} {v : Option String}
    {i : ℕ} (h : i ∈ p.candsOf now v) :
    (p.getKey i).dead = false ∧ i < p.keys.length := by
  unfold KeyPool.candsOf at h
  rw [List.mem_filter] at h
  obtain ⟨h1, _⟩ := h
  unfold KeyPool.eligible_idx at h1
  rw [List.mem_filter] at h1
  obtain ⟨hr, hcond⟩ := h1
  rw [List.mem_range] at hr
  refine ⟨?_, hr⟩
  rw [Bool.and_eq_true] at hcond
  have := hcond.1
  rwa [Bool.not_eq_true'] at this

/-- C9: `acquire_key` only ever hands out keys of positive weight — a
weight-`w` key contributes `max(0, w)` copies to the round-robin
expansion, so a nonpositive weight never yields a pick nor a fallback;
when every candidate has nonpositive weight, the expansion is empty and
the result is `none` even though the candidate set is non-empty. -/
theorem C9_no_nonpositive_weight (p : KeyPool) (now : ℚ) (v : Option String) :
    (∀ j, (p.acquire_key now v).1 = some j → 0 < (p.getKey j).weight) ∧
    ((∀ i ∈ p.candsOf now v, (p.getKey i).weight ≤ 0) →
      (p.acquire_key now v).1 = none) := by
  constructor
  · intro j h
    exact (KeyPool.acquire_key_mem h).2
  · intro hall
    cases ho : (p.acquire_key now v).1 with
    | none => rfl
    | some j =>
      obtain ⟨hj, hwt⟩ := KeyPool.acquire_key_mem ho
      exact absurd hwt (not_lt.2 (hall j hj))

/-- A pool with a single live key of weight 0, used to witness C9. -/
def zeroWeightPool : KeyPool :=
  { keys := [{ key := "k0", vendor := "openai", weight := 0, dead := false
               breaker := CircuitBreaker.default, bucket := ⟨60, 1, 60, 0⟩
               min_cooldown := 5, next_probe_ts := 0, base_url := none }]
    rr_cursor := 0 }

/-- C9, witness: the single key of `zeroWeightPool` is a candidate
(eligibility ignores weight), yet `acquire_key` returns `none`. -/
theorem C9_witness :
    KeyPool.candsOf zeroWeightPool 1 none = [0] ∧
    (KeyPool.acquire_key zeroWeightPool 1 none).1 = none :=
  ⟨by decide, (C9_no_nonpositive_weight zeroWeightPool 1 none).2 (by decide)⟩

section PoolOps

/-- One serialized operation against the pool (the lock admits them one at
a time): an acquisition, a success report, or a failure report. -/
inductive PoolOp where
  | acq (now : ℚ) (vendor : Option String)
  | success (i : ℕ)
  | failure (i : ℕ) (kind : String) (retry_after : Option ℚ) (rand : ℚ) (now : ℚ)
deriving Repr, DecidableEq

/-- The pool state left behind by one serialized operation. -/
def applyOp (p : KeyPool) : PoolOp → KeyPool
  | .acq now v => (p.acquire_key now v).2
  | .success i => p.report_success i
  | .failure i kind ra rand now => p.report_failure i kind ra rand now

/-- Writing back a key with only its breaker changed leaves every key's
`dead` flag unchanged. -/
lemma KeyPool.getKey_setBreaker_dead (p : KeyPool) (i : ℕ)
    (cb : CircuitBreaker) (j : ℕ) :
    ((p.setKey i { p.getKey i with breaker := cb }).getKey j).dead
      = (p.getKey j).dead := by
  rw [KeyPool.getKey_setKey]
  by_cases h : i = j ∧ i < p.keys.length
  · obtain ⟨rfl, hlen⟩ := h
    rw [if_pos ⟨rfl, hlen⟩]
  · rw [if_neg h]

/-- A dead key stays dead through any `report_failure` (an auth failure
can only set more `dead` flags, the other kinds touch only breakers). -/
lemma KeyPool.dead_report_failure {p : KeyPool} {i : ℕ} (i' : ℕ)
    (kind : String) (ra : Option ℚ) (rand now : ℚ)
    (h : (p.getKey i).dead = true) :
    ((p.report_failure i' kind ra rand now).getKey i).dead = true := by
  unfold KeyPool.report_failure
  split_ifs with h1 h2 h3
  · rw [KeyPool.getKey_setKey]
    by_cases hc : i' = i ∧ i' < p.keys.length
    · rw [if_pos hc]
    · rw [if_neg hc]; exact h
  · rw [KeyPool.getKey_setBreaker_dead]; exact h
  · rw [KeyPool.getKey_setBreaker_dead]; exact h
  · rw [KeyPool.getKey_setBreaker_dead]; exact h

/-- A dead key stays dead through `report_success` (which only resets a
breaker). -/
lemma KeyPool.dead_report_success {p : KeyPool} {i : ℕ} (i' : ℕ)
    (h : (p.getKey i).dead = true) :
    ((p.report_success i').getKey i).dead = true := by
  unfold KeyPool.report_success
  rw [KeyPool.getKey_setBreaker_dead]
  exact h

/-- An acquisition never changes any key's `dead` flag. -/
lemma KeyPool.dead_acquire (p : KeyPool) (now : ℚ) (v : Option String)
    (i : ℕ) :
    (((p.acquire_key now v).2).getKey i).dead = (p.getKey i).dead := by
  unfold KeyPool.acquire_key
  by_cases hc : (p.candsOf now v).isEmpty
  · rw [if_pos hc]
  · rw [if_neg hc]
    exact (KeyPool.acquireGo_preserves now (p.candsOf now v)
      (p.candsOf now v).length p none ⊤ i).1

/-- A dead key stays dead through any single serialized pool operation. -/
lemma dead_applyOp (p : KeyPool) (op : PoolOp) (i : ℕ)
    (h : (p.getKey i).dead = true) :
    ((applyOp p op).getKey i).dead = true := by
  cases op with
  | acq now v => rw [applyOp, KeyPool.dead_acquire]; exact h
  | success i' => exact KeyPool.dead_report_success i' h
  | failure i' kind ra rand now => exact KeyPool.dead_report_failure i' kind ra rand now h

/-- A dead key stays dead through any sequence of serialized pool
operations. -/
lemma dead_foldl (ops : List PoolOp) :
    ∀ (p : KeyPool) (i : ℕ), (p.getKey i).dead = true →
      ((ops.foldl applyOp p).getKey i).dead = true := by
  induction ops with
  | nil => intro p i h; exact h
  | cons op rest ih =>
    intro p i h
    exact ih (applyOp p op) i (dead_applyOp p op i h)

end PoolOps

/-- C6: after an `'auth'` failure report for key `i`, no subsequent
sequence of acquisitions, success reports or failure reports (for any
keys) ever makes key `i` healthy again, and `acquire_key` never returns
it again: its `dead` flag stays true, `healthy()` is false at every
instant, and any acquisition result differs from `i`. -/
theorem C6_auth_death_is_permanent (p : KeyPool) (i : ℕ)
    (hi : i < p.keys.length) (ra : Option ℚ) (rand now₀ : ℚ)
    (ops : List PoolOp) :
    ((List.foldl applyOp (p.report_failure i "auth" ra rand now₀) ops).getKey i).dead
      = true ∧
    (∀ now, ((List.foldl applyOp (p.report_failure i "auth" ra rand now₀) ops).getKey
      i).healthy now = false) ∧
    (∀ now v, ((List.foldl applyOp (p.report_failure i "auth" ra rand now₀)
      ops).acquire_key now v).1 ≠ some i) := by
  have hdead0 : ((p.report_failure i "auth" ra rand now₀).getKey i).dead = true := by
    unfold KeyPool.report_failure
    rw [if_pos rfl, KeyPool.getKey_setKey, if_pos ⟨rfl, hi⟩]
  have hdead : ((List.foldl applyOp (p.report_failure i "auth" ra rand now₀)
      ops).getKey i).dead = true :=
    dead_foldl ops _ i hdead0
  refine ⟨hdead, ?_, ?_⟩
  · intro now
    rw [APIKey.healthy, hdead]
    rfl
  · intro now v h
    obtain ⟨hj, _⟩ := KeyPool.acquire_key_mem h
    obtain ⟨hnd, _⟩ := KeyPool.mem_cands_not_dead hj
    rw [hdead] at hnd
    cases hnd

/-- A pool with a single live `openai` key, used to witness C6. -/
def authPool : KeyPool :=
  { keys := [{ key := "ka", vendor := "openai", weight := 1, dead := false
               breaker := CircuitBreaker.default, bucket := ⟨60, 1, 60, 0⟩
               min_cooldown := 5, next_probe_ts := 0, base_url := none }]
    rr_cursor := 0 }

/-- C6, witness: kill `authPool`'s only key with an auth failure, then
report a success for it and run an acquisition; it is still dead,
unhealthy at time 2, and not returned by an acquisition at time 3. -/
theorem C6_witness :
    ((List.foldl applyOp (KeyPool.report_failure authPool 0 "auth" none 10 0)
      [.success 0, .acq 1 none]).getKey 0).dead = true ∧
    ((List.foldl applyOp (KeyPool.report_failure authPool 0 "auth" none 10 0)
      [.success 0, .acq 1 none]).getKey 0).healthy 2 = false ∧
    ((List.foldl applyOp (KeyPool.report_failure authPool 0 "auth" none 10 0)
      [.success 0, .acq 1 none]).acquire_key 3 none).1 ≠ some 0 :=
  ⟨(C6_auth_death_is_permanent authPool 0 (by decide) none 10 0
      [.success 0, .acq 1 none]).1,
   (C6_auth_death_is_permanent authPool 0 (by decide) none 10 0
      [.success 0, .acq 1 none]).2.1 2,
   (C6_auth_death_is_permanent authPool 0 (by decide) none 10 0
      [.success 0, .acq 1 none]).2.2 3 none⟩

section SinglePool

/-- A pool holding one live `openai` key of weight 1 with a bucket of
capacity `C`, refill rate 0 and current stock `r` (the configuration of
the no-double-spend scenario). -/
def onePool (C : ℕ) (r ts : ℚ) (cur : ℕ) : KeyPool :=
  { keys := [{ key := "k", vendor := "openai", weight := 1, dead := false
               breaker := CircuitBreaker.default
               bucket := { capacity := (C : ℚ), refill_rate := 0, tokens := r
                           last_refill_ts := ts }
               min_cooldown := 5, next_probe_ts := 0, base_url := none }]
    rr_cursor := cur }

/-- A burst of `acquire()` calls, one per timestamp: the pool lock
serializes concurrent acquirers, so their concurrent execution is some
sequential run like this one. -/
def runAcquires : KeyPool → List ℚ → List (Option ℕ) × KeyPool
  | p, [] => ([], p)
  | p, t :: rest =>
    ((p.acquire_key t none).1 :: (runAcquires (p.acquire_key t none).2 rest).1,
     (runAcquires (p.acquire_key t none).2 rest).2)

/-- With a token in stock (and zero refill), one acquisition on the
single-key pool consumes exactly one token and returns the key. -/
lemma onePool_acquire_succeeds (C : ℕ) (r ts : ℚ) (cur : ℕ) (now : ℚ)
    (hnow : 0 ≤ now) (hrC : r ≤ (C : ℚ)) (h1 : 1 ≤ r) :
    (onePool C r ts cur).acquire_key now none
      = (some 0, onePool C (r - 1) now (cur + 1)) := by
  simp [KeyPool.acquire_key, KeyPool.candsOf, KeyPool.eligible_idx, KeyPool.vendorOk,
    onePool, KeyPool.getKey, KeyPool.setKey, CircuitBreaker.is_open,
    CircuitBreaker.default, KeyPool.wrr, KeyPool.expandedOf, KeyPool.acquireGo,
    TokenBucket.try_consume, TokenBucket.refill, not_lt.2 hnow,
    min_eq_right hrC, h1, List.range_succ, Nat.mod_one]

/-- Without a token in stock (and zero refill), one acquisition on the
single-key pool consumes nothing and returns `none` — the only
candidate's wait is infinite, so it is not even kept as a fallback. -/
lemma onePool_acquire_fails (C : ℕ) (r ts : ℚ) (cur : ℕ) (now : ℚ)
    (hnow : 0 ≤ now) (hrC : r ≤ (C : ℚ)) (h1 : r < 1) :
    (onePool C r ts cur).acquire_key now none
      = (none, onePool C r now (cur + 1)) := by
  simp [KeyPool.acquire_key, KeyPool.candsOf, KeyPool.eligible_idx, KeyPool.vendorOk,
    onePool, KeyPool.getKey, KeyPool.setKey, CircuitBreaker.is_open,
    CircuitBreaker.default, KeyPool.wrr, KeyPool.expandedOf, KeyPool.acquireGo,
    TokenBucket.try_consume, TokenBucket.refill, TokenBucket.time_to_avail,
    not_lt.2 hnow, min_eq_right hrC, not_le.2 h1, List.range_succ, Nat.mod_one]

/-- Running a burst of acquisitions against the single-key pool with `m`
tokens in stock: the first `m` calls succeed, the rest return `none`. -/
lemma runAcquires_onePool (C : ℕ) (times : List ℚ) :
    ∀ (m : ℕ) (ts : ℚ) (cur : ℕ), m ≤ C → (∀ t ∈ times, 0 ≤ t) →
      (runAcquires (onePool C (m : ℚ) ts cur) times).1 =
        List.replicate (min m times.length) (some 0) ++
          List.replicate (times.length - m) none := by
  induction times with
  | nil => intro m ts cur hm ht; simp [runAcquires]
  | cons t rest ih =>
    intro m ts cur hm ht
    have ht0 : 0 ≤ t := ht t (by simp)
    have htr : ∀ u ∈ rest, 0 ≤ u := fun u hu => ht u (by simp [hu])
    have hmC : ((m : ℕ) : ℚ) ≤ (C : ℚ) := by exact_mod_cast hm
    cases m with
    | zero =>
      have hacq := onePool_acquire_fails C ((0 : ℕ) : ℚ) ts cur t ht0 hmC
        (by norm_num)
      rw [runAcquires, hacq]
      have := ih 0 t (cur + 1) (Nat.zero_le C) htr
      simp only [Nat.cast_zero] at this hacq ⊢
      rw [this]
      simp [List.replicate_succ]
    | succ k =>
      have h1 : (1 : ℚ) ≤ ((k + 1 : ℕ) : ℚ) := by
        exact_mod_cast Nat.succ_le_succ (Nat.zero_le k)
      have hacq := onePool_acquire_succeeds C ((k + 1 : ℕ) : ℚ) ts cur t ht0 hmC h1
      have hcast : ((k + 1 : ℕ) : ℚ) - 1 = ((k : ℕ) : ℚ) := by
        push_cast; ring
      rw [runAcquires, hacq, hcast]
      have := ih k t (cur + 1) (le_trans (Nat.le_succ k) hm) htr
      rw [this]
      simp [Nat.succ_min_succ, Nat.succ_sub_succ, List.replicate_succ]

/-- C1: against a pool with a single credential of capacity `C`, a full
stock of `C` tokens and zero refill rate, a burst of `N ≥ C` serialized
`acquire()` calls (the pool lock serializes concurrent acquirers) consumes
a token exactly `C` times — the first `C` calls return the key — and each
of the remaining `N - C` calls consumes nothing and returns `none` (with
zero refill the rate-limited key's wait is infinite, so it is not kept as
a fallback). -/
theorem C1_no_double_spend (C : ℕ) (times : List ℚ)
    (hC : C ≤ times.length) (ht : ∀ t ∈ times, 0 ≤ t) (ts : ℚ) (cur : ℕ) :
    (runAcquires (onePool C (C : ℚ) ts cur) times).1 =
      List.replicate C (some 0) ++ List.replicate (times.length - C) none := by
  have h := runAcquires_onePool C times C ts cur le_rfl ht
  rwa [min_eq_left hC] at h

/-- C1, witness: capacity 2, three acquisitions at times 0, 1, 5 — the
first two succeed, the third returns `none`. -/
theorem C1_witness :
    (runAcquires (onePool 2 ((2 : ℕ) : ℚ) 0 0) [0, 1, 5]).1 =
      [some 0, some 0, none] := by
  have h := C1_no_double_spend 2 [0, 1, 5] (by decide) (by decide) 0 0
  simpa using h

end SinglePool

section Fallback

/-- The wait a failing pick is remembered with inside `acquire_key`: its
bucket has just been refilled by the failed `try_consume`, so the recorded
value is `time_to_avail 1` of the refilled bucket. -/
def waitOf (p : KeyPool) (now : ℚ) (i : ℕ) : WithTop ℚ :=
  ((p.getKey i).bucket.refill now).time_to_avail 1

/-- The trace of `_weighted_round_robin` choices one `acquire_key` call
makes: weights do not change during the loop, so pick `t` is the
expansion's entry at `(rr_cursor + t) % len`. -/
def picksOf (p : KeyPool) (cands : List ℕ) (fuel : ℕ) : List ℕ :=
  if (p.expandedOf cands).isEmpty then []
  else
    (List.range fuel).map fun t =>
      (p.expandedOf cands).getD ((p.rr_cursor + t) % (p.expandedOf cands).length) 0

/-- The pure fallback bookkeeping of `acquire_key`'s loop: keep the first
strict improvement of the running best wait. -/
def bestFold (W : ℕ → WithTop ℚ) : List ℕ → Option ℕ × WithTop ℚ → Option ℕ × WithTop ℚ
  | [], acc => acc
  | i :: rest, (b, bw) =>
    if W i < bw then bestFold W rest (some i, W i) else bestFold W rest (b, bw)

/-- Pools that agree on candidate weights have the same round-robin
expansion. -/
lemma expandedOf_congr {p q : KeyPool} (cands : List ℕ)
    (h : ∀ i ∈ cands, (p.getKey i).weight = (q.getKey i).weight) :
    p.expandedOf cands = q.expandedOf cands := by
  unfold KeyPool.expandedOf
  induction cands with
  | nil => rfl
  | cons a l ih =>
    rw [List.flatMap_cons, List.flatMap_cons, h a (List.mem_cons_self a l),
      ih fun i hi => h i (List.mem_cons_of_mem a hi)]

/-- A `try_consume` against an insufficient refilled stock fails and
leaves exactly the refilled bucket. -/
lemma try_consume_fails {b : TokenBucket} {now : ℚ}
    (h : (b.refill now).tokens < 1) :
    b.try_consume now 1 = (false, b.refill now) := by
  rw [TokenBucket.try_consume, if_neg (not_le.2 h)]

/-- What the fallback fold guarantees: its wait only decreases, bounds
every listed wait, matches the wait of whatever `some` it returns (which
is a list member or the seed), and a `none` result means the seed was
`none` and nothing improved. -/
lemma bestFold_spec (W : ℕ → WithTop ℚ) :
    ∀ (l : List ℕ) (b : Option ℕ) (bw : WithTop ℚ),
      (∀ j, b = some j → bw = W j) →
      ((bestFold W l (b, bw)).2 ≤ bw) ∧
      (∀ i ∈ l, (bestFold W l (b, bw)).2 ≤ W i) ∧
      (∀ j, (bestFold W l (b, bw)).1 = some j →
        (bestFold W l (b, bw)).2 = W j ∧ (j ∈ l ∨ b = some j)) ∧
      ((bestFold W l (b, bw)).1 = none → b = none ∧ (bestFold W l (b, bw)).2 = bw) := by
  intro l
  induction l with
  | nil =>
    intro b bw hb
    refine ⟨le_rfl, by simp, ?_, ?_⟩
    · intro j hj
      exact ⟨hb j hj, Or.inr hj⟩
    · intro hn
      cases b with
      | none => exact ⟨rfl, rfl⟩
      | some j => cases hn
  | cons i rest ih =>
    intro b bw hb
    rw [bestFold]
    by_cases hlt : W i < bw
    · rw [if_pos hlt]
      have hb' : ∀ j, (some i : Option ℕ) = some j → W i = W j := by
        intro j hj
        rw [Option.some.inj hj]
      obtain ⟨ih1, ih2, ih3, ih4⟩ := ih (some i) (W i) hb'
      refine ⟨le_trans ih1 (le_of_lt hlt), ?_, ?_, ?_⟩
      · intro m hm
        rcases List.mem_cons.1 hm with rfl | hm'
        · exact ih1
        · exact ih2 m hm'
      · intro j hj
        obtain ⟨hw, hmem⟩ := ih3 j hj
        refine ⟨hw, ?_⟩
        rcases hmem with hm | hm
        · exact Or.inl (List.mem_cons_of_mem i hm)
        · exact Or.inl (by rw [Option.some.inj hm]; exact List.mem_cons_self j rest)
      · intro hn
        obtain ⟨hc, _⟩ := ih4 hn
        cases hc
    · rw [if_neg hlt]
      obtain ⟨ih1, ih2, ih3, ih4⟩ := ih b bw hb
      refine ⟨ih1, ?_, ?_, ih4⟩
      · intro m hm
        rcases List.mem_cons.1 hm with rfl | hm'
        · exact le_trans ih1 (not_lt.1 hlt)
        · exact ih2 m hm'
      · intro j hj
        obtain ⟨hw, hmem⟩ := ih3 j hj
        refine ⟨hw, ?_⟩
        rcases hmem with hm | hm
        · exact Or.inl (List.mem_cons_of_mem i hm)
        · exact Or.inr hm

end Fallback

section FallbackLoop

/-- The round-robin trace over a fixed expansion `e`, starting at cursor
`cur`: pick `t` is `e[(cur + t) % len]`. -/
def picksFrom (e : List ℕ) (cur fuel : ℕ) : List ℕ :=
  (List.range fuel).map fun t => e.getD ((cur + t) % e.length) 0

/-- Unfolding of `bestFold` on an empty pick list. -/
lemma bestFold_nil (W : ℕ → WithTop ℚ) (acc : Option ℕ × WithTop ℚ) :
    bestFold W [] acc = acc := rfl

/-- Unfolding of `bestFold` on a non-empty pick list. -/
lemma bestFold_cons (W : ℕ → WithTop ℚ) (i : ℕ) (rest : List ℕ)
    (b : Option ℕ) (bw : WithTop ℚ) :
    bestFold W (i :: rest) (b, bw) =
      if W i < bw then bestFold W rest (some i, W i)
      else bestFold W rest (b, bw) := rfl

/-- Peeling the first pick off a round-robin trace. -/
lemma picksFrom_succ (e : List ℕ) (cur n : ℕ) :
    picksFrom e cur (n + 1) =
      e.getD (cur % e.length) 0 :: picksFrom e (cur + 1) n := by
  unfold picksFrom
  rw [List.range_succ_eq_map, List.map_cons, List.map_map, Nat.add_zero]
  congr 1
  apply List.map_congr_left
  intro t _
  have h : cur + Nat.succ t = cur + 1 + t := by omega
  simp [Function.comp, h]

/-- When the expansion is the non-empty list `e`, the per-call pick trace
is `picksFrom`. -/
lemma picksOf_eq_picksFrom {p : KeyPool} {cands : List ℕ} {e : List ℕ}
    (hE : p.expandedOf cands = e) (he : e.isEmpty = false) (fuel : ℕ) :
    picksOf p cands fuel = picksFrom e p.rr_cursor fuel := by
  unfold picksOf picksFrom
  rw [hE, he]
  simp

/-- Updating a key's bucket twice keeps only the second update. -/
lemma APIKey.setBucket_setBucket (k : APIKey) (b₁ b₂ : TokenBucket) :
    ({ { k with bucket := b₁ } with bucket := b₂ } : APIKey)
      = { k with bucket := b₂ } := rfl

end FallbackLoop

/-- The acquisition loop when every candidate's refilled stock is below 1
and the expansion is non-empty: its result is exactly the fallback fold of
`waitOf` over the round-robin trace, and any returned key's bucket ends
refilled but unconsumed.  The pool argument `p` ranges over the loop's
intermediate states: each key is either untouched or already refilled. -/
lemma acquireGo_allfail (now : ℚ) (cands : List ℕ) (p₀ : KeyPool)
    (e : List ℕ)
    (hfail : ∀ i ∈ cands, ((p₀.getKey i).bucket.refill now).tokens < 1)
    (hlen₀ : ∀ i ∈ cands, i < p₀.keys.length)
    (hE₀ : p₀.expandedOf cands = e) (hene : e ≠ []) :
    ∀ (fuel : ℕ) (p : KeyPool) (best : Option ℕ) (bw : WithTop ℚ),
      p.keys.length = p₀.keys.length →
      (∀ i, p.getKey i = p₀.getKey i ∨
        p.getKey i = { p₀.getKey i with bucket := (p₀.getKey i).bucket.refill now }) →
      (∀ j, best = some j → (p.getKey j).bucket = (p₀.getKey j).bucket.refill now) →
      (KeyPool.acquireGo now cands fuel p best bw).1
          = (bestFold (waitOf p₀ now) (picksFrom e p.rr_cursor fuel) (best, bw)).1 ∧
      ∀ j, (KeyPool.acquireGo now cands fuel p best bw).1 = some j →
        ((KeyPool.acquireGo now cands fuel p best bw).2.getKey j).bucket
          = (p₀.getKey j).bucket.refill now := by
  have heb : e.isEmpty = false := by
    cases e with
    | nil => exact absurd rfl hene
    | cons a l => rfl
  intro fuel
  induction fuel with
  | zero =>
    intro p best bw hL hinv hbest
    exact ⟨rfl, fun j hj => hbest j hj⟩
  | succ n ih =>
    intro p best bw hL hinv hbest
    have hweights : ∀ m ∈ cands, (p.getKey m).weight = (p₀.getKey m).weight := by
      intro m _
      rcases hinv m with h | h <;> rw [h]
    have hE : p.expandedOf cands = e :=
      (expandedOf_congr cands hweights).trans hE₀
    have hlen : 0 < e.length := List.length_pos.2 hene
    have hwrr : p.wrr cands
        = (some (e.getD (p.rr_cursor % e.length) 0),
           { p with rr_cursor := p.rr_cursor + 1 }) := by
      unfold KeyPool.wrr
      rw [hE]
      simp [heb]
    have hiE : e.getD (p.rr_cursor % e.length) 0 ∈ e := by
      rw [List.getD_eq_getElem?_getD,
        List.getElem?_eq_getElem (Nat.mod_lt _ hlen)]
      exact List.getElem_mem (Nat.mod_lt _ hlen)
    have hic : e.getD (p.rr_cursor % e.length) 0 ∈ cands :=
      (KeyPool.mem_expandedOf (p := p₀) (by rw [hE₀]; exact hiE)).1
    set i := e.getD (p.rr_cursor % e.length) 0 with hi
    have hgk : ∀ m, ({ p with rr_cursor := p.rr_cursor + 1 } : KeyPool).getKey m
        = p.getKey m := fun _ => rfl
    have hbre : (p.getKey i).bucket.refill now
        = (p₀.getKey i).bucket.refill now := by
      rcases hinv i with h | h
      · rw [h]
      · rw [h]
        exact TokenBucket.refill_refill _ now
    have hfi : ((p.getKey i).bucket.refill now).tokens < 1 := by
      rw [hbre]
      exact hfail i hic
    have hcons : (p.getKey i).bucket.try_consume now 1
        = (false, (p₀.getKey i).bucket.refill now) := by
      rw [try_consume_fails hfi, hbre]
    have hilen : i < p.keys.length := by
      rw [hL]
      exact hlen₀ i hic
    rw [KeyPool.acquireGo_succ_some now n best bw hwrr, hgk i, hcons]
    rw [if_neg (by simp : ¬((false, (p₀.getKey i).bucket.refill now).1 = true))]
    have hps : ((false, (p₀.getKey i).bucket.refill now)).2
        = (p₀.getKey i).bucket.refill now := rfl
    rw [hps]
    have hwdef : ((p₀.getKey i).bucket.refill now).time_to_avail 1
        = waitOf p₀ now i := rfl
    rw [hwdef]
    -- the written-back pool of this iteration
    set pc : KeyPool :=
      ({ p with rr_cursor := p.rr_cursor + 1 } : KeyPool).setKey i
        { p.getKey i with bucket := (p₀.getKey i).bucket.refill now } with hpc
    have hgk2 : ∀ m, pc.getKey m
        = if i = m ∧ i < p.keys.length
          then { p.getKey i with bucket := (p₀.getKey i).bucket.refill now }
          else p.getKey m := by
      intro m
      rw [hpc, KeyPool.getKey_setKey]
      rfl
    have hL2 : pc.keys.length = p₀.keys.length := by
      rw [hpc]
      unfold KeyPool.setKey
      simpa [List.length_set] using hL
    have hinv2 : ∀ m, pc.getKey m = p₀.getKey m ∨
        pc.getKey m = { p₀.getKey m with bucket := (p₀.getKey m).bucket.refill now } := by
      intro m
      rw [hgk2]
      by_cases hm : i = m ∧ i < p.keys.length
      · obtain ⟨rfl, _⟩ := hm
        rw [if_pos ⟨rfl, hilen⟩]
        right
        rcases hinv i with h | h
        · rw [h]
        · rw [h]
      · rw [if_neg hm]
        exact hinv m
    have hcur : pc.rr_cursor = p.rr_cursor + 1 := rfl
    have hbucket_i : (pc.getKey i).bucket = (p₀.getKey i).bucket.refill now := by
      rw [hgk2, if_pos ⟨rfl, hilen⟩]
    rw [picksFrom_succ, ← hi, bestFold_cons]
    by_cases hb2 : waitOf p₀ now i < bw
    · rw [if_pos hb2, if_pos hb2]
      have hbest2 : ∀ j, (some i : Option ℕ) = some j →
          (pc.getKey j).bucket = (p₀.getKey j).bucket.refill now := by
        intro j hj
        rw [← Option.some.inj hj]
        exact hbucket_i
      obtain ⟨A, B⟩ := ih pc (some i) (waitOf p₀ now i) hL2 hinv2 hbest2
      rw [hcur] at A
      exact ⟨A, B⟩
    · rw [if_neg hb2, if_neg hb2]
      have hbest2 : ∀ j, best = some j →
          (pc.getKey j).bucket = (p₀.getKey j).bucket.refill now := by
        intro j hj
        rw [hgk2]
        by_cases hm : i = j ∧ i < p.keys.length
        · obtain ⟨rfl, _⟩ := hm
          rw [if_pos ⟨rfl, hilen⟩]
        · rw [if_neg hm]
          exact hbest j hj
      obtain ⟨A, B⟩ := ih pc best bw hL2 hinv2 hbest2
      rw [hcur] at A
      exact ⟨A, B⟩

/-- C2, counterexample. A pool whose only credential has zero refill rate
and an empty bucket: the eligible set is `[0]` and the single pick's
`tryConsume(1)` fails, yet `acquire_key` returns `none` rather than the
picked candidate — an infinite `timeToAvailable` never beats the initial
infinite best wait (`inf < inf` is false), so no fallback is recorded. -/
theorem C2_counterexample :
    KeyPool.candsOf (onePool 1 0 0 0) 0 none = [0] ∧
    (((onePool 1 0 0 0).getKey 0).bucket.refill 0).tokens < 1 ∧
    ((onePool 1 0 0 0).acquire_key 0 none).1 = none := by
  refine ⟨by decide, ?_, ?_⟩
  · norm_num [onePool, KeyPool.getKey, TokenBucket.refill]
  · rw [onePool_acquire_fails 1 0 0 0 0 le_rfl (by norm_num) (by norm_num)]

/-- C2, amended: when the candidate set is non-empty, every picked
candidate's `tryConsume(1)` fails, and at least one picked candidate has a
finite `timeToAvailable(1)`, `acquire_key` returns a picked candidate
whose recorded wait is minimal among all picks, and that credential's
bucket ends refilled but with no token subtracted; when every pick's wait
is infinite (zero refill rate), it returns `none` instead. -/
theorem C2_min_wait_fallback (p : KeyPool) (now : ℚ) (v : Option String)
    (hfail : ∀ i ∈ p.candsOf now v, ((p.getKey i).bucket.refill now).tokens < 1)
    (hfin : ∃ i ∈ picksOf p (p.candsOf now v) (p.candsOf now v).length,
      waitOf p now i ≠ ⊤) :
    ∃ j, (p.acquire_key now v).1 = some j ∧
      j ∈ picksOf p (p.candsOf now v) (p.candsOf now v).length ∧
      (∀ i ∈ picksOf p (p.candsOf now v) (p.candsOf now v).length,
        waitOf p now j ≤ waitOf p now i) ∧
      ((p.acquire_key now v).2.getKey j).bucket = (p.getKey j).bucket.refill now := by
  set cands := p.candsOf now v with hc
  set e := p.expandedOf cands with he
  obtain ⟨i0, hi0, hW0⟩ := hfin
  have hene : e ≠ [] := by
    intro h
    have hnil : picksOf p cands cands.length = [] := by
      unfold picksOf
      rw [← he, h]
      simp
    rw [hnil] at hi0
    exact absurd hi0 (List.not_mem_nil i0)
  have heb : e.isEmpty = false := by
    cases hE2 : e.isEmpty
    · rfl
    · exact absurd (List.isEmpty_iff.mp hE2) hene
  have hcne : cands.isEmpty = false := by
    cases hc2 : cands.isEmpty
    · rfl
    · exfalso
      apply hene
      rw [he, List.isEmpty_iff.mp hc2]
      rfl
  have hlen₀ : ∀ i ∈ cands, i < p.keys.length := fun i hi =>
    (KeyPool.mem_cands_not_dead hi).2
  obtain ⟨A, B⟩ := acquireGo_allfail now cands p e hfail hlen₀ he.symm hene
    cands.length p none ⊤ rfl (fun i => Or.inl rfl) (fun j hj => by cases hj)
  have hacq : p.acquire_key now v
      = KeyPool.acquireGo now cands cands.length p none ⊤ := by
    simp [KeyPool.acquire_key, ← hc, hcne]
  have hpicks : picksOf p cands cands.length
      = picksFrom e p.rr_cursor cands.length :=
    picksOf_eq_picksFrom he.symm heb cands.length
  obtain ⟨bf1, bf2, bf3, bf4⟩ := bestFold_spec (waitOf p now)
    (picksFrom e p.rr_cursor cands.length) none ⊤ (fun j hj => by cases hj)
  cases hres : (p.acquire_key now v).1 with
  | none =>
    exfalso
    have hres' : (KeyPool.acquireGo now cands cands.length p none ⊤).1 = none := by
      rw [← hacq]
      exact hres
    rw [A] at hres'
    obtain ⟨_, hbw⟩ := bf4 hres'
    have hi0' : i0 ∈ picksFrom e p.rr_cursor cands.length := by
      rw [← hpicks]
      exact hi0
    have hle := bf2 i0 hi0'
    rw [hbw] at hle
    exact hW0 (top_le_iff.mp hle)
  | some j =>
    have hres' : (bestFold (waitOf p now)
        (picksFrom e p.rr_cursor cands.length) (none, ⊤)).1 = some j := by
      rw [← A, ← hacq]
      exact hres
    obtain ⟨hw, hmem⟩ := bf3 j hres'
    have hjmem : j ∈ picksFrom e p.rr_cursor cands.length := by
      rcases hmem with hm | hm
      · exact hm
      · cases hm
    refine ⟨j, rfl, ?_, ?_, ?_⟩
    · rw [hpicks]
      exact hjmem
    · intro i hi
      have hi' : i ∈ picksFrom e p.rr_cursor cands.length := by
        rw [← hpicks]
        exact hi
      have hle := bf2 i hi'
      rw [hw] at hle
      exact hle
    · have hresgo : (KeyPool.acquireGo now cands cands.length p none ⊤).1
          = some j := by
        rw [← hacq]
        exact hres
      have hB := B j hresgo
      rw [hacq]
      exact hB

/-- A pool with one live key whose bucket is empty but refilling (rate 1),
used to witness C2's amended statement. -/
def rlPool : KeyPool :=
  { keys := [{ key := "kr", vendor := "openai", weight := 1, dead := false
               breaker := CircuitBreaker.default, bucket := ⟨60, 1, 0, 0⟩
               min_cooldown := 5, next_probe_ts := 0, base_url := none }]
    rr_cursor := 0 }

/-- C2, witness: the amended statement at `rlPool`, acquiring at time 0 —
the single pick fails with finite wait 1, so it is returned unconsumed. -/
theorem C2_witness :
    ∃ j, (KeyPool.acquire_key rlPool 0 none).1 = some j ∧
      j ∈ picksOf rlPool (KeyPool.candsOf rlPool 0 none)
        (KeyPool.candsOf rlPool 0 none).length ∧
      (∀ i ∈ picksOf rlPool (KeyPool.candsOf rlPool 0 none)
          (KeyPool.candsOf rlPool 0 none).length,
        waitOf rlPool 0 j ≤ waitOf rlPool 0 i) ∧
      ((KeyPool.acquire_key rlPool 0 none).2.getKey j).bucket
        = (rlPool.getKey j).bucket.refill 0 :=
  C2_min_wait_fallback rlPool 0 none
    (by
      intro i hi
      have hcv : KeyPool.candsOf rlPool 0 none = [0] := by decide
      rw [hcv] at hi
      have h0 : i = 0 := by simpa using hi
      subst h0
      norm_num [rlPool, KeyPool.getKey, TokenBucket.refill])
    (by
      refine ⟨0, ?_, ?_⟩
      · show (0 : ℕ) ∈ picksOf rlPool (KeyPool.candsOf rlPool 0 none)
          (KeyPool.candsOf rlPool 0 none).length
        decide
      · show waitOf rlPool 0 0 ≠ ⊤
        norm_num [waitOf, rlPool, KeyPool.getKey, TokenBucket.refill,
          TokenBucket.time_to_avail])
